import Mathlib

/-!
# Verification of the sinogram codec (`main.go`)

Shallow embedding of the core of the repository: a reversible substitution
codec that maps ordered pairs of base64-alphabet characters onto CJK
ideographs drawn from a dictionary text, and back.

Modelling conventions:
* bytes and Unicode code points are `Nat`;
* Go strings are lists of code points (the inputs the codec handles are
  ASCII or CJK, where Go's byte-level / rune-level views agree);
* Go maps (`pairToRune`, `runeToPair`) are association lists consulted
  with `List.lookup`; the keys inserted by `buildMapping` are distinct, so
  first-match lookup agrees with Go's map semantics;
* fallible operations return `Option` / `Except`.
-/

set_option maxRecDepth 4000

namespace Sinogram

/-- The base64 alphabet, in order (`base64Charset` in `main.go`).
Stored as the list of ASCII codes of
`"ABCDEFGHIJKLMNOPQRSTUVWXYZabcdefghijklmnopqrstuvwxyz0123456789+/"`. -/
def base64Charset : List Nat :=
  ("ABCDEFGHIJKLMNOPQRSTUVWXYZabcdefghijklmnopqrstuvwxyz0123456789+/".toList).map Char.toNat

/-- `minDictChars` in `main.go`: minimum characters for basic functionality. -/
def minDictChars : Nat := 256

/-- `maxPairs` in `main.go`: 64 * 64 possible base64 pairs. -/
def maxPairs : Nat := 4096

/-- `isChineseChar` in `main.go`: the rune lies in one of the three CJK
Unicode ranges (Unified Ideographs, Extension A, Extension B). -/
def isChineseChar (r : Nat) : Bool :=
  (0x4E00 ≤ r && r ≤ 0x9FFF) ||
  (0x3400 ≤ r && r ≤ 0x4DBF) ||
  (0x20000 ≤ r && r ≤ 0x2A6DF)

/-- The loop of `extractChineseCharacters` in `main.go`: scan the text in
order, keeping a `seen` set (here: the list of already-collected runes, which
Go's `seen` map tracks), and emit each qualifying rune at its first
occurrence. -/
def extractGo : List Nat → List Nat → List Nat
  | [], _ => []
  | r :: rs, seen =>
    if !seen.contains r && isChineseChar r then r :: extractGo rs (r :: seen)
    else extractGo rs seen

/-- `extractChineseCharacters` in `main.go`: collect unique Chinese
characters from text, in first-appearance order. -/
def extractChineseCharacters (text : List Nat) : List Nat :=
  extractGo text []

/-- `base64Charset[i]` (Go byte indexing; indices used are always `< 64`). -/
def b64Char (i : Nat) : Nat := base64Charset.getD i 0

/-- The row-major enumeration of the 4096 pairs
`(base64Charset[i], base64Charset[j])` for `i, j ∈ [0, 64)`, generated by the
two nested loops of `buildMapping` in `main.go`. -/
def allPairs : List (Nat × Nat) :=
  (List.range 64).flatMap (fun i => (List.range 64).map (fun j => (b64Char i, b64Char j)))

/-- The `Codec` struct in `main.go`: bidirectional mapping between base64
pairs and Chinese characters, as association lists. -/
structure Codec where
  pairToRune : List ((Nat × Nat) × Nat)
  runeToPair : List (Nat × (Nat × Nat))
deriving DecidableEq, Repr

/-- `buildMapping` in `main.go`: walk the row-major pair enumeration and the
extracted characters in lockstep (`idx` in the Go code), stopping when either
the 4096 pairs or the characters run out — which is exactly `List.zip`; both
directions of the map receive the same entries. -/
def buildMapping (chars : List Nat) : Codec :=
  let entries := allPairs.zip chars
  { pairToRune := entries
    runeToPair := entries.map (fun e => (e.2, e.1)) }

/-- `isValidBase64Pair` in `main.go`: both bytes occur in `base64Charset`
(`strings.IndexByte(...) != -1`). The `len(pair) == 2` conjunct of the Go
code is implicit here: the pair is passed as its two characters. -/
def isValidBase64Pair (a b : Nat) : Bool :=
  base64Charset.contains a && base64Charset.contains b

/-- Standard base64 encoding with `=` padding
(`base64.StdEncoding.EncodeToString` in Go), on byte lists. `61` is the code
of `=`. -/
def base64Encode : List Nat → List Nat
  | [] => []
  | [b0] => [b64Char (b0 / 4), b64Char (b0 % 4 * 16), 61, 61]
  | [b0, b1] => [b64Char (b0 / 4), b64Char (b0 % 4 * 16 + b1 / 16), b64Char (b1 % 16 * 4), 61]
  | b0 :: b1 :: b2 :: rest =>
    b64Char (b0 / 4) :: b64Char (b0 % 4 * 16 + b1 / 16) ::
      b64Char (b1 % 16 * 4 + b2 / 64) :: b64Char (b2 % 64) :: base64Encode rest

/-- Index of a byte in the base64 alphabet, `none` when absent. -/
def b64IndexAux : List Nat → Nat → Nat → Option Nat
  | [], _, _ => none
  | c :: cs, ch, k => if c == ch then some k else b64IndexAux cs ch (k + 1)

/-- Index of a byte in `base64Charset` (`none` for non-alphabet bytes,
including `=`). -/
def b64Index (ch : Nat) : Option Nat := b64IndexAux base64Charset ch 0

/-- One 4-character group at a time, standard base64 decoding
(`base64.StdEncoding.DecodeString` in Go): `=` padding is accepted only in
the final group, in the last one or two positions; any other non-alphabet
character is an error; Go's default decoder does not reject non-zero
trailing bits. -/
def decodeQuads : List Nat → Option (List Nat)
  | [] => some []
  | c1 :: c2 :: c3 :: c4 :: rest =>
    if rest = [] ∧ c3 = 61 ∧ c4 = 61 then
      match b64Index c1, b64Index c2 with
      | some i1, some i2 => some [i1 * 4 + i2 / 16]
      | _, _ => none
    else if rest = [] ∧ c4 = 61 then
      match b64Index c1, b64Index c2, b64Index c3 with
      | some i1, some i2, some i3 => some [i1 * 4 + i2 / 16, i2 % 16 * 16 + i3 / 4]
      | _, _, _ => none
    else
      match b64Index c1, b64Index c2, b64Index c3, b64Index c4, decodeQuads rest with
      | some i1, some i2, some i3, some i4, some bs =>
        some ((i1 * 4 + i2 / 16) :: (i2 % 16 * 16 + i3 / 4) :: (i3 % 4 * 64 + i4) :: bs)
      | _, _, _, _, _ => none
  | _ => none

/-- `base64.StdEncoding.DecodeString`: Go's decoder skips `\r` and `\n`
(codes 13 and 10) anywhere in the input, then consumes 4-character groups;
any other deviation from the padded base64 grammar is an error. -/
def base64Decode (s : List Nat) : Option (List Nat) :=
  decodeQuads (s.filter (fun c => !(c == 13 || c == 10)))

/-- The padding step of `encodeData` in `main.go` (lines 121-124): if the
intermediate text has odd length, append one `=` to reach even length. -/
def padEven (text : List Nat) : List Nat :=
  if text.length % 2 ≠ 0 then text ++ [61] else text

/-- The main loop of `encodeData` in `main.go` (lines 129-143): consume the
text two characters at a time; a valid-alphabet pair found in the mapping is
replaced by its character, a valid-alphabet pair absent from the mapping is
passed through and counted as unmapped, anything else is passed through
uncounted. Returns the output together with the `unmapped` counter. -/
def encodePairs (c : Codec) : List Nat → List Nat × Nat
  | a :: b :: rest =>
    let r := encodePairs c rest
    if isValidBase64Pair a b then
      match List.lookup (a, b) c.pairToRune with
      | some ch => (ch :: r.1, r.2)
      | none => (a :: b :: r.1, r.2 + 1)
    else (a :: b :: r.1, r.2)
  | _ => ([], 0)

/-- `encodeData` in `main.go`: base64-encode (or pass the raw bytes), pad to
even length, substitute pairs. -/
def encodeData (c : Codec) (data : List Nat) (useBase64 : Bool) : List Nat :=
  let text := if useBase64 then base64Encode data else data
  (encodePairs c (padEven text)).1

/-- The loop of `decodeData` in `main.go` (lines 192-199): scan the text one
code point at a time, replacing mapped characters by their pair and passing
everything else through. -/
def reconstruct (c : Codec) : List Nat → List Nat
  | [] => []
  | r :: rs =>
    match List.lookup r c.runeToPair with
    | some p => p.1 :: p.2 :: reconstruct c rs
    | none => r :: reconstruct c rs

/-- `decodeData` in `main.go`: reconstruct the intermediate text, then
base64-decode it when `useBase64` is set, else return its bytes directly. -/
def decodeData (c : Codec) (text : List Nat) (useBase64 : Bool) : Option (List Nat) :=
  let s := reconstruct c text
  if useBase64 then base64Decode s else some s

/-- The error of `LoadDictionary` in `main.go`:
`insufficient Chinese characters (found: %d, need: %d+)`. -/
inductive DictError where
  | insufficient (found required : Nat)
deriving DecidableEq, Repr

/-- The core of `LoadDictionary` in `main.go` (file reading and stats
printing are I/O collaborators): extract the unique Chinese characters,
fail when fewer than `minDictChars`, otherwise build the mapping. -/
def loadDictionary (content : List Nat) : Except DictError Codec :=
  let uniqueChars := extractChineseCharacters content
  if uniqueChars.length < minDictChars then
    .error (.insufficient uniqueChars.length minDictChars)
  else
    .ok (buildMapping uniqueChars)

/-- Modelled from the spec (for comparison with `extractChineseCharacters`):
"collect each qualifying character exactly once, at its first occurrence,
into a sequence preserving that order" — keep the first occurrence of each
element of a list, dropping later duplicates. -/
def dedupFirst : List Nat → List Nat
  | [] => []
  | a :: l => a :: dedupFirst (l.filter (fun x => !(x == a)))
termination_by l => l.length
decreasing_by simp only [List.length_cons]; exact Nat.lt_succ_of_le (List.length_filter_le _ _)

/-! ## Facts about the base64 alphabet -/

theorem charset_length : base64Charset.length = 64 := by decide

theorem charset_nodup : base64Charset.Nodup := by decide

theorem charset_not_chinese : ∀ x ∈ base64Charset, isChineseChar x = false := by decide

theorem charset_not_crlf : ∀ x ∈ base64Charset, x ≠ 13 ∧ x ≠ 10 := by decide

theorem not_mem_charset_61 : (61 : Nat) ∉ base64Charset := by decide

theorem isChineseChar_61 : isChineseChar 61 = false := by decide

theorem b64Char_facts : ∀ k ∈ List.range 64,
    b64Char k ∈ base64Charset ∧ b64Char k ≠ 61 ∧ b64Index (b64Char k) = some k := by decide

theorem b64Char_mem {k : Nat} (h : k < 64) : b64Char k ∈ base64Charset :=
  (b64Char_facts k (List.mem_range.mpr h)).1

theorem b64Char_ne_61 {k : Nat} (h : k < 64) : b64Char k ≠ 61 :=
  (b64Char_facts k (List.mem_range.mpr h)).2.1

theorem b64Index_b64Char {k : Nat} (h : k < 64) : b64Index (b64Char k) = some k :=
  (b64Char_facts k (List.mem_range.mpr h)).2.2

theorem b64Char_injOn : ∀ k ∈ List.range 64, ∀ k' ∈ List.range 64,
    b64Char k = b64Char k' → k = k' := by decide

/-! ## Association-list lookup lemmas -/

theorem lookup_eq_some_of_mem {α β : Type} [BEq α] [LawfulBEq α]
    {l : List (α × β)} (hnd : (l.map Prod.fst).Nodup) {a : α} {b : β}
    (hm : (a, b) ∈ l) : List.lookup a l = some b := by
  induction l with
  | nil => cases hm
  | cons e tl ih =>
    obtain ⟨k, v⟩ := e
    rw [List.lookup_cons]
    have hkeys : k ∉ List.map Prod.fst tl ∧ (List.map Prod.fst tl).Nodup := by
      rw [List.map_cons, List.nodup_cons] at hnd
      exact hnd
    rcases List.mem_cons.mp hm with he | htl
    · rw [Prod.mk.injEq] at he
      obtain ⟨rfl, rfl⟩ := he
      simp
    · have hk : (a == k) = false := by
        rw [beq_eq_false_iff_ne]
        rintro rfl
        exact hkeys.1 (List.mem_map.mpr ⟨(a, b), htl, rfl⟩)
      rw [hk]
      exact ih hkeys.2 htl

theorem mem_of_lookup_eq_some {α β : Type} [BEq α] [LawfulBEq α]
    {l : List (α × β)} {a : α} {b : β}
    (h : List.lookup a l = some b) : (a, b) ∈ l := by
  induction l with
  | nil => simp [List.lookup] at h
  | cons e tl ih =>
    obtain ⟨k, v⟩ := e
    cases hk : a == k with
    | true =>
      simp only [List.lookup_cons, hk] at h
      injection h with h
      subst h
      rw [show a = k from eq_of_beq hk]
      exact List.mem_cons_self _ _
    | false =>
      simp only [List.lookup_cons, hk] at h
      exact List.mem_cons_of_mem _ (ih h)

theorem lookup_eq_none_of_not_mem_keys {α β : Type} [BEq α] [LawfulBEq α]
    {l : List (α × β)} {a : α} (h : a ∉ l.map Prod.fst) :
    List.lookup a l = none := by
  induction l with
  | nil => rfl
  | cons e tl ih =>
    obtain ⟨k, v⟩ := e
    rw [List.lookup_cons]
    have hk : (a == k) = false := by
      rw [beq_eq_false_iff_ne]
      rintro rfl
      exact h (by simp)
    rw [hk]
    exact ih fun hm => h (by simp at hm ⊢; exact Or.inr hm)

/-! ## Zip lemmas -/

theorem map_fst_zip_take {α β : Type} :
    ∀ (l₁ : List α) (l₂ : List β), (l₁.zip l₂).map Prod.fst = l₁.take l₂.length
  | [], _ => by simp
  | _ :: _, [] => by simp
  | a :: l₁, b :: l₂ => by
    simp [List.zip_cons_cons, map_fst_zip_take l₁ l₂]

theorem map_snd_zip_take {α β : Type} :
    ∀ (l₁ : List α) (l₂ : List β), (l₁.zip l₂).map Prod.snd = l₂.take l₁.length
  | [], _ => by simp
  | _ :: _, [] => by simp
  | a :: l₁, b :: l₂ => by
    simp [List.zip_cons_cons, map_snd_zip_take l₁ l₂]

/-! ## Facts about the pair enumeration -/

/-- Flattening the two nested loops of `buildMapping`, one outer iteration at
a time: after `m` outer iterations the assigned pairs are
`(base64Charset[idx / 64], base64Charset[idx % 64])` for `idx < m * 64`. -/
theorem allPairs_aux : ∀ m : Nat,
    (List.range m).flatMap (fun i => (List.range 64).map (fun j => (b64Char i, b64Char j)))
      = (List.range (m * 64)).map (fun k => (b64Char (k / 64), b64Char (k % 64))) := by
  intro m
  induction m with
  | zero => rfl
  | succ m ih =>
    rw [List.range_succ, List.flatMap_append, ih, List.flatMap_cons, List.flatMap_nil,
      List.append_nil, Nat.succ_mul, List.range_add, List.map_append, List.map_map]
    congr 1
    refine List.map_congr_left fun j hj => ?_
    have hj' := List.mem_range.mp hj
    simp only [Function.comp_apply]
    have h1 : (m * 64 + j) / 64 = m := by omega
    have h2 : (m * 64 + j) % 64 = j := by omega
    rw [h1, h2]

/-- Flattening the two nested loops of `buildMapping`: the `idx`-th assigned
pair is `(base64Charset[idx / 64], base64Charset[idx % 64])`. -/
theorem allPairs_eq_map_range :
    allPairs = (List.range 4096).map (fun k => (b64Char (k / 64), b64Char (k % 64))) :=
  allPairs_aux 64

theorem allPairs_length : allPairs.length = 4096 := by
  rw [allPairs_eq_map_range, List.length_map, List.length_range]

theorem allPairs_nodup : allPairs.Nodup := by
  rw [allPairs_eq_map_range]
  refine List.Nodup.map_on ?_ (List.nodup_range _)
  intro x hx y hy hxy
  have hx' := List.mem_range.mp hx
  have hy' := List.mem_range.mp hy
  rw [Prod.mk.injEq] at hxy
  have h1 : x / 64 = y / 64 :=
    b64Char_injOn _ (List.mem_range.mpr (by omega)) _ (List.mem_range.mpr (by omega)) hxy.1
  have h2 : x % 64 = y % 64 :=
    b64Char_injOn _ (List.mem_range.mpr (by omega)) _ (List.mem_range.mpr (by omega)) hxy.2
  omega

theorem allPairs_getElem? {k : Nat} (h : k < 4096) :
    allPairs[k]? = some (b64Char (k / 64), b64Char (k % 64)) := by
  rw [allPairs_eq_map_range, List.getElem?_map, List.getElem?_range h, Option.map_some']

/-! ## Facts about character extraction -/

theorem extractGo_mem : ∀ (l seen : List Nat), ∀ x ∈ extractGo l seen,
    isChineseChar x = true ∧ x ∉ seen := by
  intro l
  induction l with
  | nil => intro seen x hx; simp [extractGo] at hx
  | cons r rs ih =>
    intro seen x hx
    rw [extractGo] at hx
    by_cases hc : (!seen.contains r && isChineseChar r) = true
    · rw [if_pos hc] at hx
      rw [Bool.and_eq_true, Bool.not_eq_true'] at hc
      rcases List.mem_cons.mp hx with rfl | h
      · refine ⟨hc.2, fun hmem => ?_⟩
        have he : seen.elem x = true := List.elem_iff.mpr hmem
        rw [show seen.elem x = seen.contains x from rfl, hc.1] at he
        cases he
      · have := ih (r :: seen) x h
        exact ⟨this.1, fun hs => this.2 (List.mem_cons_of_mem _ hs)⟩
    · rw [if_neg hc] at hx
      exact ih seen x hx

theorem extractGo_nodup : ∀ (l seen : List Nat), (extractGo l seen).Nodup := by
  intro l
  induction l with
  | nil => intro seen; simp [extractGo]
  | cons r rs ih =>
    intro seen
    rw [extractGo]
    by_cases hc : (!seen.contains r && isChineseChar r) = true
    · rw [if_pos hc, List.nodup_cons]
      refine ⟨fun hmem => ?_, ih (r :: seen)⟩
      exact (extractGo_mem rs (r :: seen) r hmem).2 (List.mem_cons_self _ _)
    · rw [if_neg hc]
      exact ih seen

theorem extract_nodup (text : List Nat) : (extractChineseCharacters text).Nodup :=
  extractGo_nodup text []

theorem extract_chinese (text : List Nat) :
    ∀ x ∈ extractChineseCharacters text, isChineseChar x = true :=
  fun x hx => (extractGo_mem text [] x hx).1

/-- A duplicate-free list of qualifying characters extracts to itself. -/
theorem extractGo_eq_self : ∀ (l seen : List Nat), l.Nodup →
    (∀ x ∈ l, isChineseChar x = true) → (∀ x ∈ l, x ∉ seen) →
    extractGo l seen = l := by
  intro l
  induction l with
  | nil => intro seen _ _ _; rfl
  | cons r rs ih =>
    intro seen hnd hcjk hdisj
    rw [extractGo, if_pos, List.cons.injEq]
    · refine ⟨rfl, ih (r :: seen) (List.nodup_cons.mp hnd).2
        (fun x hx => hcjk x (List.mem_cons_of_mem _ hx)) ?_⟩
      intro x hx hmem
      rcases List.mem_cons.mp hmem with rfl | hs
      · exact (List.nodup_cons.mp hnd).1 hx
      · exact hdisj x (List.mem_cons_of_mem _ hx) hs
    · rw [Bool.and_eq_true, Bool.not_eq_true']
      refine ⟨?_, hcjk r (List.mem_cons_self _ _)⟩
      rw [show seen.contains r = seen.elem r from rfl]
      rw [Bool.eq_false_iff]
      intro he
      exact hdisj r (List.mem_cons_self _ _) (List.elem_iff.mp he)

theorem extract_eq_self {l : List Nat} (hnd : l.Nodup)
    (hcjk : ∀ x ∈ l, isChineseChar x = true) :
    extractChineseCharacters l = l :=
  extractGo_eq_self l [] hnd hcjk (by simp)

/-! ## Facts about the built mapping -/

theorem buildMapping_pairToRune (chars : List Nat) :
    (buildMapping chars).pairToRune = allPairs.zip chars := rfl

theorem buildMapping_runeToPair (chars : List Nat) :
    (buildMapping chars).runeToPair = (allPairs.zip chars).map (fun e => (e.2, e.1)) := rfl

/-- Keys of `pairToRune` are the first `min(4096, len chars)` pairs,
duplicate-free. -/
theorem bm_fst_keys (chars : List Nat) :
    (buildMapping chars).pairToRune.map Prod.fst = allPairs.take chars.length :=
  map_fst_zip_take allPairs chars

theorem bm_fst_keys_nodup (chars : List Nat) :
    ((buildMapping chars).pairToRune.map Prod.fst).Nodup := by
  rw [bm_fst_keys]
  exact (List.take_sublist _ _).nodup allPairs_nodup

theorem bm_snd_vals (chars : List Nat) :
    (buildMapping chars).pairToRune.map Prod.snd = chars.take 4096 := by
  rw [buildMapping_pairToRune, map_snd_zip_take, allPairs_length]

theorem bm_rtp_keys (chars : List Nat) :
    (buildMapping chars).runeToPair.map Prod.fst = chars.take 4096 := by
  rw [buildMapping_runeToPair, List.map_map]
  exact bm_snd_vals chars

theorem bm_rtp_keys_nodup {chars : List Nat} (hnd : chars.Nodup) :
    ((buildMapping chars).runeToPair.map Prod.fst).Nodup := by
  rw [bm_rtp_keys]
  exact (List.take_sublist _ _).nodup hnd

theorem bm_rtp_vals (chars : List Nat) :
    (buildMapping chars).runeToPair.map Prod.snd = allPairs.take chars.length := by
  rw [buildMapping_runeToPair, List.map_map]
  exact bm_fst_keys chars

/-- Every entry of `pairToRune` appears swapped in `runeToPair`; with
duplicate-free characters this makes the reverse lookup exact. -/
theorem bm_lookup_reverse {chars : List Nat} (hnd : chars.Nodup) {p : Nat × Nat} {ch : Nat}
    (h : List.lookup p (buildMapping chars).pairToRune = some ch) :
    List.lookup ch (buildMapping chars).runeToPair = some p := by
  have hmem : (p, ch) ∈ (buildMapping chars).pairToRune := mem_of_lookup_eq_some h
  have hmem' : (ch, p) ∈ (buildMapping chars).runeToPair := by
    rw [buildMapping_runeToPair]
    exact List.mem_map.mpr ⟨(p, ch), hmem, rfl⟩
  exact lookup_eq_some_of_mem (bm_rtp_keys_nodup hnd) hmem'

/-- Characters outside the CJK ranges are never keys of the reverse map
(all keys come from the extracted characters). -/
theorem bm_rtp_lookup_none {chars : List Nat} (hcjk : ∀ x ∈ chars, isChineseChar x = true)
    {r : Nat} (hr : isChineseChar r = false) :
    List.lookup r (buildMapping chars).runeToPair = none := by
  refine lookup_eq_none_of_not_mem_keys fun hmem => ?_
  rw [bm_rtp_keys] at hmem
  have : r ∈ chars := (List.take_sublist _ _).subset hmem
  rw [hcjk r this] at hr
  cases hr

/-- The `k`-th entry of `pairToRune`. -/
theorem bm_entry {chars : List Nat} {k : Nat} (h : k < min 4096 chars.length) :
    (buildMapping chars).pairToRune[k]? =
      some ((b64Char (k / 64), b64Char (k % 64)), chars.getD k 0) := by
  rw [buildMapping_pairToRune]
  have h1 : k < allPairs.length := by rw [allPairs_length]; omega
  have h2 : k < chars.length := by omega
  have hz : k < (allPairs.zip chars).length := by
    rw [List.length_zip]; omega
  rw [List.getElem?_eq_getElem hz]
  rw [List.getElem_zip]
  have ha : allPairs[k] = (b64Char (k / 64), b64Char (k % 64)) := by
    have := allPairs_getElem? (show k < 4096 by omega)
    rw [List.getElem?_eq_getElem h1] at this
    exact Option.some.inj this
  have hc : chars[k] = chars.getD k 0 := by
    rw [List.getD_eq_getElem?_getD, List.getElem?_eq_getElem h2, Option.getD_some]
  rw [ha, hc]

/-- Lookup of the `k`-th pair returns the `k`-th character. -/
theorem bm_lookup_pair {chars : List Nat} {k : Nat} (h : k < min 4096 chars.length) :
    List.lookup (b64Char (k / 64), b64Char (k % 64)) (buildMapping chars).pairToRune =
      some (chars.getD k 0) :=
  lookup_eq_some_of_mem (bm_fst_keys_nodup chars) (List.getElem?_mem (bm_entry h))

/-- Lookup of the `k`-th character returns the `k`-th pair. -/
theorem bm_lookup_rune {chars : List Nat} (hnd : chars.Nodup) {k : Nat}
    (h : k < min 4096 chars.length) :
    List.lookup (chars.getD k 0) (buildMapping chars).runeToPair =
      some (b64Char (k / 64), b64Char (k % 64)) :=
  bm_lookup_reverse hnd (bm_lookup_pair h)

theorem bm_length (chars : List Nat) :
    (buildMapping chars).pairToRune.length = min 4096 chars.length := by
  rw [buildMapping_pairToRune, List.length_zip, allPairs_length]

theorem bm_rtp_length (chars : List Nat) :
    (buildMapping chars).runeToPair.length = min 4096 chars.length := by
  rw [buildMapping_runeToPair, List.length_map, ← buildMapping_pairToRune, bm_length]

/-! ## Facts about standard base64 -/

/-- The length of a standard base64 encoding is a multiple of 4. -/
theorem base64Encode_length (data : List Nat) : (base64Encode data).length % 4 = 0 := by
  induction data using base64Encode.induct with
  | case1 => rfl
  | case2 b0 => rw [base64Encode]; simp only [List.length_cons, List.length_nil]
  | case3 b0 b1 => rw [base64Encode]; simp only [List.length_cons, List.length_nil]
  | case4 b0 b1 b2 rest ih =>
    rw [base64Encode]
    simp only [List.length_cons]
    omega

/-- Every character of a base64 encoding of bytes is an alphabet character
or the padding character `=`. -/
theorem base64Encode_mem {data : List Nat} (hb : ∀ b ∈ data, b < 256) :
    ∀ x ∈ base64Encode data, x ∈ base64Charset ∨ x = 61 := by
  induction data using base64Encode.induct with
  | case1 => intro x hx; cases hx
  | case2 b0 =>
    intro x hx
    have h0 : b0 < 256 := hb b0 (by simp)
    rw [base64Encode] at hx
    rcases hx with _ | ⟨_, _ | ⟨_, _ | ⟨_, h⟩⟩⟩
    · exact Or.inl (b64Char_mem (by omega))
    · exact Or.inl (b64Char_mem (by omega))
    · exact Or.inr rfl
    · rcases h with _ | ⟨_, h⟩
      · exact Or.inr rfl
      · cases h
  | case3 b0 b1 =>
    intro x hx
    have h0 : b0 < 256 := hb b0 (by simp)
    have h1 : b1 < 256 := hb b1 (by simp)
    rw [base64Encode] at hx
    rcases hx with _ | ⟨_, _ | ⟨_, _ | ⟨_, h⟩⟩⟩
    · exact Or.inl (b64Char_mem (by omega))
    · exact Or.inl (b64Char_mem (by omega))
    · exact Or.inl (b64Char_mem (by omega))
    · rcases h with _ | ⟨_, h⟩
      · exact Or.inr rfl
      · cases h
  | case4 b0 b1 b2 rest ih =>
    intro x hx
    have h0 : b0 < 256 := hb b0 (by simp)
    have h1 : b1 < 256 := hb b1 (by simp)
    have h2 : b2 < 256 := hb b2 (by simp)
    rw [base64Encode] at hx
    rcases hx with _ | ⟨_, _ | ⟨_, _ | ⟨_, _ | ⟨_, h⟩⟩⟩⟩
    · exact Or.inl (b64Char_mem (by omega))
    · exact Or.inl (b64Char_mem (by omega))
    · exact Or.inl (b64Char_mem (by omega))
    · exact Or.inl (b64Char_mem (by omega))
    · exact ih (fun b hbm => hb b (by simp [hbm])) x h

/-- Decoding group-by-group inverts the encoder. -/
theorem decodeQuads_encode {data : List Nat} (hb : ∀ b ∈ data, b < 256) :
    decodeQuads (base64Encode data) = some data := by
  induction data using base64Encode.induct with
  | case1 => rfl
  | case2 b0 =>
    have h0 : b0 < 256 := hb b0 (by simp)
    rw [base64Encode, decodeQuads, if_pos ⟨rfl, rfl, rfl⟩,
      b64Index_b64Char (show b0 / 4 < 64 by omega),
      b64Index_b64Char (show b0 % 4 * 16 < 64 by omega)]
    show some [b0 / 4 * 4 + b0 % 4 * 16 / 16] = some [b0]
    have e1 : b0 / 4 * 4 + b0 % 4 * 16 / 16 = b0 := by omega
    rw [e1]
  | case3 b0 b1 =>
    have h0 : b0 < 256 := hb b0 (by simp)
    have h1 : b1 < 256 := hb b1 (by simp)
    rw [base64Encode, decodeQuads,
      if_neg (fun h => b64Char_ne_61 (show b1 % 16 * 4 < 64 by omega) h.2.1),
      if_pos ⟨rfl, rfl⟩,
      b64Index_b64Char (show b0 / 4 < 64 by omega),
      b64Index_b64Char (show b0 % 4 * 16 + b1 / 16 < 64 by omega),
      b64Index_b64Char (show b1 % 16 * 4 < 64 by omega)]
    show some [b0 / 4 * 4 + (b0 % 4 * 16 + b1 / 16) / 16,
      (b0 % 4 * 16 + b1 / 16) % 16 * 16 + b1 % 16 * 4 / 4] = some [b0, b1]
    have e1 : b0 / 4 * 4 + (b0 % 4 * 16 + b1 / 16) / 16 = b0 := by omega
    have e2 : (b0 % 4 * 16 + b1 / 16) % 16 * 16 + b1 % 16 * 4 / 4 = b1 := by omega
    rw [e1, e2]
  | case4 b0 b1 b2 rest ih =>
    have h0 : b0 < 256 := hb b0 (by simp)
    have h1 : b1 < 256 := hb b1 (by simp)
    have h2 : b2 < 256 := hb b2 (by simp)
    have hrest := ih (fun b hbm => hb b (by simp [hbm]))
    rw [base64Encode, decodeQuads,
      if_neg (fun h => b64Char_ne_61 (show b1 % 16 * 4 + b2 / 64 < 64 by omega) h.2.1),
      if_neg (fun h => b64Char_ne_61 (show b2 % 64 < 64 by omega) h.2),
      b64Index_b64Char (show b0 / 4 < 64 by omega),
      b64Index_b64Char (show b0 % 4 * 16 + b1 / 16 < 64 by omega),
      b64Index_b64Char (show b1 % 16 * 4 + b2 / 64 < 64 by omega),
      b64Index_b64Char (show b2 % 64 < 64 by omega),
      hrest]
    show some ((b0 / 4 * 4 + (b0 % 4 * 16 + b1 / 16) / 16) ::
      ((b0 % 4 * 16 + b1 / 16) % 16 * 16 + (b1 % 16 * 4 + b2 / 64) / 4) ::
      ((b1 % 16 * 4 + b2 / 64) % 4 * 64 + b2 % 64) :: rest) = some (b0 :: b1 :: b2 :: rest)
    have e1 : b0 / 4 * 4 + (b0 % 4 * 16 + b1 / 16) / 16 = b0 := by omega
    have e2 : (b0 % 4 * 16 + b1 / 16) % 16 * 16 + (b1 % 16 * 4 + b2 / 64) / 4 = b1 := by omega
    have e3 : (b1 % 16 * 4 + b2 / 64) % 4 * 64 + b2 % 64 = b2 := by omega
    rw [e1, e2, e3]

/-- Encoder output contains no carriage returns or newlines, so the
decoder's `\r\n` filter is the identity on it. -/
theorem base64Encode_filter {data : List Nat} (hb : ∀ b ∈ data, b < 256) :
    (base64Encode data).filter (fun c => !(c == 13 || c == 10)) = base64Encode data := by
  rw [List.filter_eq_self]
  intro x hx
  rcases base64Encode_mem hb x hx with h | h
  · have := charset_not_crlf x h
    simp [this.1, this.2]
  · subst h
    rfl

/-- `decode(encode(b))` round-trips through standard base64. -/
theorem base64Decode_encode {data : List Nat} (hb : ∀ b ∈ data, b < 256) :
    base64Decode (base64Encode data) = some data := by
  rw [base64Decode, base64Encode_filter hb, decodeQuads_encode hb]

/-! ## The substitution round trip -/

theorem encodeData_true (c : Codec) (data : List Nat) :
    encodeData c data true = (encodePairs c (padEven (base64Encode data))).1 := rfl

theorem encodeData_false (c : Codec) (data : List Nat) :
    encodeData c data false = (encodePairs c (padEven data)).1 := rfl

theorem decodeData_true (c : Codec) (text : List Nat) :
    decodeData c text true = base64Decode (reconstruct c text) := rfl

theorem decodeData_false (c : Codec) (text : List Nat) :
    decodeData c text false = some (reconstruct c text) := rfl

/-- Unfolding of the `encodeData` loop on one two-character segment. -/
theorem encodePairs_cons (c : Codec) (a b : Nat) (rest : List Nat) :
    encodePairs c (a :: b :: rest) =
      if isValidBase64Pair a b then
        match List.lookup (a, b) c.pairToRune with
        | some ch => (ch :: (encodePairs c rest).1, (encodePairs c rest).2)
        | none => (a :: b :: (encodePairs c rest).1, (encodePairs c rest).2 + 1)
      else (a :: b :: (encodePairs c rest).1, (encodePairs c rest).2) := rfl

theorem reconstruct_cons (c : Codec) (r : Nat) (rs : List Nat) :
    reconstruct c (r :: rs) =
      match List.lookup r c.runeToPair with
      | some p => p.1 :: p.2 :: reconstruct c rs
      | none => r :: reconstruct c rs := rfl

/-- Decoding inverts the pair-substitution loop on any even-length text of
non-CJK characters, for a codec whose reverse map exactly undoes its forward
map and whose keys are all CJK. -/
theorem reconstruct_encodePairs (c : Codec)
    (hround : ∀ p ch, List.lookup p c.pairToRune = some ch →
      List.lookup ch c.runeToPair = some p)
    (hpass : ∀ x, isChineseChar x = false → List.lookup x c.runeToPair = none) :
    ∀ (n text : List Nat), text.length ≤ n.length →
      (∀ x ∈ text, isChineseChar x = false) → text.length % 2 = 0 →
      reconstruct c (encodePairs c text).1 = text := by
  intro n
  induction n with
  | nil =>
    intro text hlen _ _
    have : text = [] := List.length_eq_zero.mp (by simpa using hlen)
    subst this
    rfl
  | cons m n ih =>
    intro text hlen hnc hev
    match text with
    | [] => rfl
    | [a] => simp at hev
    | a :: b :: rest =>
      have ha : isChineseChar a = false := hnc a (by simp)
      have hb : isChineseChar b = false := hnc b (by simp)
      have hrest : reconstruct c (encodePairs c rest).1 = rest := by
        refine ih rest ?_ (fun x hx => hnc x (by simp [hx])) ?_
        · simp only [List.length_cons] at hlen ⊢
          omega
        · simp only [List.length_cons] at hev ⊢
          omega
      rw [encodePairs_cons]
      by_cases hv : isValidBase64Pair a b
      · rw [if_pos hv]
        cases hl : List.lookup (a, b) c.pairToRune with
        | some ch =>
          rw [reconstruct_cons, hround (a, b) ch hl, hrest]
        | none =>
          rw [reconstruct_cons, hpass a ha, reconstruct_cons, hpass b hb, hrest]
      · rw [if_neg hv, reconstruct_cons, hpass a ha, reconstruct_cons, hpass b hb, hrest]

/-- The padded base64-mode round trip: for any dictionary text, decoding the
encoding of any byte list recovers it exactly. -/
theorem roundTrip_b64 (dictText data : List Nat) (hb : ∀ b ∈ data, b < 256) :
    decodeData (buildMapping (extractChineseCharacters dictText))
      (encodeData (buildMapping (extractChineseCharacters dictText)) data true) true =
      some data := by
  set chars := extractChineseCharacters dictText with hchars
  have hnd : chars.Nodup := extract_nodup dictText
  have hcjk : ∀ x ∈ chars, isChineseChar x = true := extract_chinese dictText
  have hpadded : padEven (base64Encode data) = base64Encode data := by
    rw [padEven, if_neg]
    have := base64Encode_length data
    omega
  have hsub : reconstruct (buildMapping chars)
      (encodePairs (buildMapping chars) (base64Encode data)).1 = base64Encode data := by
    refine reconstruct_encodePairs (buildMapping chars)
      (fun p ch h => bm_lookup_reverse hnd h)
      (fun x hx => bm_rtp_lookup_none hcjk hx)
      (base64Encode data) (base64Encode data) le_rfl ?_ ?_
    · intro x hx
      rcases base64Encode_mem hb x hx with h | h
      · exact charset_not_chinese x h
      · rw [h]; exact isChineseChar_61
    · have := base64Encode_length data
      omega
  rw [encodeData_true, decodeData_true, hpadded, hsub, base64Decode_encode hb]

/-! ## Extraction as keep-first deduplication -/

theorem mem_dedupFirst : ∀ (l : List Nat) (x : Nat), x ∈ dedupFirst l ↔ x ∈ l := by
  intro l
  induction l using dedupFirst.induct with
  | case1 => intro x; rw [dedupFirst]
  | case2 a l ih =>
    intro x
    rw [dedupFirst]
    constructor
    · intro hx
      rcases List.mem_cons.mp hx with rfl | h
      · exact List.mem_cons_self _ _
      · exact List.mem_cons_of_mem _ (List.mem_of_mem_filter ((ih _).mp h))
    · intro hx
      rcases List.mem_cons.mp hx with rfl | h
      · exact List.mem_cons_self _ _
      · by_cases hxa : x = a
        · subst hxa; exact List.mem_cons_self _ _
        · refine List.mem_cons_of_mem _ ((ih _).mpr ?_)
          exact List.mem_filter.mpr ⟨h, by simp [hxa]⟩

/-- The extraction loop is keep-first deduplication of the characters that
qualify and are not yet seen. -/
theorem extractGo_eq_dedup : ∀ (l seen : List Nat),
    extractGo l seen = dedupFirst (l.filter (fun r => isChineseChar r && !seen.contains r)) := by
  intro l
  induction l with
  | nil => intro seen; rw [List.filter_nil, dedupFirst]; rfl
  | cons r rs ih =>
    intro seen
    rw [extractGo, List.filter_cons]
    by_cases h2 : seen.contains r = true
    · rw [if_neg (by rw [h2]; simp), if_neg (by rw [h2]; simp)]
      exact ih seen
    · rw [Bool.not_eq_true] at h2
      by_cases h1 : isChineseChar r = true
      · rw [if_pos (by rw [h1, h2]; rfl), if_pos (by rw [h1, h2]; rfl), dedupFirst,
          List.filter_filter, ih (r :: seen), List.cons.injEq]
        refine ⟨rfl, ?_⟩
        congr 1
        refine List.filter_congr fun x _ => ?_
        rw [List.contains_cons]
        cases isChineseChar x <;> cases x == r <;> cases seen.contains x <;> rfl
      · rw [Bool.not_eq_true] at h1
        rw [if_neg (by rw [h1]; simp), if_neg (by rw [h1]; simp)]
        exact ih seen

theorem extract_eq_dedupFirst (text : List Nat) :
    extractChineseCharacters text = dedupFirst (text.filter (fun r => isChineseChar r)) := by
  rw [extractChineseCharacters, extractGo_eq_dedup]
  congr 1
  refine List.filter_congr fun x _ => ?_
  rw [show (List.nil.contains x : Bool) = false from rfl]
  rw [Bool.not_false, Bool.and_true]

/-! ## The decode scan as a flat map -/

theorem reconstruct_flatMap (c : Codec) : ∀ text : List Nat,
    reconstruct c text = text.flatMap (fun r =>
      match List.lookup r c.runeToPair with
      | some p => [p.1, p.2]
      | none => [r]) := by
  intro text
  induction text with
  | nil => rfl
  | cons r rs ih =>
    rw [reconstruct_cons, List.flatMap_cons, ← ih]
    cases List.lookup r c.runeToPair <;> rfl

/-! ## Concrete dictionaries built from runs of CJK Unified Ideographs -/

theorem range'_cjk {s n : Nat} (h1 : 0x4E00 ≤ s) (h2 : s + n ≤ 0xA000) :
    ∀ x ∈ List.range' s n, isChineseChar x = true := by
  intro x hx
  rw [List.mem_range'_1] at hx
  simp only [isChineseChar, Bool.or_eq_true, Bool.and_eq_true, decide_eq_true_eq]
  omega

theorem extract_range' {s n : Nat} (h1 : 0x4E00 ≤ s) (h2 : s + n ≤ 0xA000) :
    extractChineseCharacters (List.range' s n) = List.range' s n :=
  extract_eq_self (List.nodup_range' s n) (range'_cjk h1 h2)

/-! ## The claims -/

/-- **C1** (corrected, counterexample): the round-trip property fails for
the raw (non-base64) setting of the flag: with the mapping built from a
300-character dictionary, encoding the single byte `0x61` (`"a"`) appends a
`=` pad which raw-mode decoding does not remove, so
`decode(encode([0x61], false), false) = [0x61, 0x3D] ≠ [0x61]`. -/
theorem C1_counterexample :
    ¬ (decodeData (buildMapping (extractChineseCharacters (List.range' 0x4E00 300)))
        (encodeData (buildMapping (extractChineseCharacters (List.range' 0x4E00 300))) [97] false)
        false = some [97]) := by
  intro h
  set c := buildMapping (extractChineseCharacters (List.range' 0x4E00 300)) with hc
  have henc : encodeData c [97] false = [97, 61] := by
    rw [encodeData_false]
    have hpad : padEven [97] = [97, 61] := rfl
    rw [hpad, encodePairs_cons, if_neg (by decide)]
    rfl
  have hrec : reconstruct c [97, 61] = [97, 61] := by
    rw [reconstruct_cons, bm_rtp_lookup_none (extract_chinese _) (by decide),
      reconstruct_cons, bm_rtp_lookup_none (extract_chinese _) (by decide)]
    rfl
  rw [henc, decodeData_false, hrec] at h
  simp at h

/-- **C1** (corrected, amended): the round-trip property holds in base64
mode: for every byte sequence `data` and the mapping built from any
dictionary text (used identically on both sides),
`decode(encode(data, true), true) = data`. In raw mode (flag unset) the
round trip fails in general (see the counterexample). -/
theorem C1_roundTrip_base64 (dictText data : List Nat) (hb : ∀ x ∈ data, x < 256) :
    decodeData (buildMapping (extractChineseCharacters dictText))
      (encodeData (buildMapping (extractChineseCharacters dictText)) data true) true =
      some data :=
  roundTrip_b64 dictText data hb

theorem C1_roundTrip_base64_witness :
    decodeData (buildMapping (extractChineseCharacters [0x4E00]))
      (encodeData (buildMapping (extractChineseCharacters [0x4E00])) [0, 255] true) true =
      some [0, 255] :=
  C1_roundTrip_base64 [0x4E00] [0, 255] (by decide)

/-- **C2**: building the mapping from the characters extracted from any
dictionary text assigns the `k`-th character to the `k`-th row-major pair
`(alphabet[k / 64], alphabet[k % 64])` for exactly
`k < min(4096, number of qualifying characters)`: both directions hold that
many entries, keys are unique on both sides (each pair maps to at most one
character, each character to at most one pair), the assigned characters are
pairwise distinct, and looking up the `k`-th pair yields the `k`-th
character, which looks back up to exactly that pair — in particular, with at
least 4096 qualifying characters all 4096 pairs are assigned. -/
theorem C2_buildMapping (text : List Nat) :
    (buildMapping (extractChineseCharacters text)).pairToRune.length =
      min 4096 (extractChineseCharacters text).length ∧
    (buildMapping (extractChineseCharacters text)).runeToPair.length =
      min 4096 (extractChineseCharacters text).length ∧
    ((buildMapping (extractChineseCharacters text)).pairToRune.map Prod.fst).Nodup ∧
    ((buildMapping (extractChineseCharacters text)).pairToRune.map Prod.snd).Nodup ∧
    ((buildMapping (extractChineseCharacters text)).runeToPair.map Prod.fst).Nodup ∧
    ∀ k, k < min 4096 (extractChineseCharacters text).length →
      List.lookup (b64Char (k / 64), b64Char (k % 64))
        (buildMapping (extractChineseCharacters text)).pairToRune =
        some ((extractChineseCharacters text).getD k 0) ∧
      List.lookup ((extractChineseCharacters text).getD k 0)
        (buildMapping (extractChineseCharacters text)).runeToPair =
        some (b64Char (k / 64), b64Char (k % 64)) := by
  refine ⟨bm_length _, bm_rtp_length _, bm_fst_keys_nodup _, ?_, ?_, ?_⟩
  · rw [bm_snd_vals]
    exact (List.take_sublist _ _).nodup (extract_nodup text)
  · exact bm_rtp_keys_nodup (extract_nodup text)
  · intro k hk
    exact ⟨bm_lookup_pair hk, bm_lookup_rune (extract_nodup text) hk⟩

theorem C2_buildMapping_witness :
    List.lookup (b64Char (1 / 64), b64Char (1 % 64))
      (buildMapping (extractChineseCharacters [0x4E00, 0x3400])).pairToRune =
      some ((extractChineseCharacters [0x4E00, 0x3400]).getD 1 0) ∧
    List.lookup ((extractChineseCharacters [0x4E00, 0x3400]).getD 1 0)
      (buildMapping (extractChineseCharacters [0x4E00, 0x3400])).runeToPair =
      some (b64Char (1 / 64), b64Char (1 % 64)) :=
  (C2_buildMapping [0x4E00, 0x3400]).2.2.2.2.2 1 (by decide)

/-- **C3**: each two-character segment of the padded intermediate text is
processed as: a valid-alphabet pair present in the mapping emits the mapped
character; a valid-alphabet pair absent from the mapping is emitted
unchanged and counted as unmapped; any other segment (e.g. one containing
`=`, which is not an alphabet character) is emitted unchanged and not
counted. Validity means exactly that both characters occur in the
64-symbol alphabet. -/
theorem C3_encodeSegment (c : Codec) (a b : Nat) (rest : List Nat) :
    encodePairs c (a :: b :: rest) =
      (if isValidBase64Pair a b then
        match List.lookup (a, b) c.pairToRune with
        | some ch => (ch :: (encodePairs c rest).1, (encodePairs c rest).2)
        | none => (a :: b :: (encodePairs c rest).1, (encodePairs c rest).2 + 1)
      else (a :: b :: (encodePairs c rest).1, (encodePairs c rest).2)) ∧
    isValidBase64Pair a b = (base64Charset.contains a && base64Charset.contains b) ∧
    isValidBase64Pair 61 b = false ∧
    isValidBase64Pair a 61 = false := by
  refine ⟨encodePairs_cons c a b rest, rfl, ?_, ?_⟩
  · rw [isValidBase64Pair, show base64Charset.contains 61 = false from by decide,
      Bool.false_and]
  · rw [isValidBase64Pair, show base64Charset.contains 61 = false from by decide,
      Bool.and_false]

/-- **C4**: decoding scans the input one code point at a time, emits the
associated pair for every key of the reverse mapping and the code point
itself for every other code point, and concatenates the pieces in order. -/
theorem C4_decodeScan (c : Codec) (text : List Nat) :
    reconstruct c text = text.flatMap (fun r =>
      match List.lookup r c.runeToPair with
      | some p => [p.1, p.2]
      | none => [r]) ∧
    decodeData c text false = some (reconstruct c text) :=
  ⟨reconstruct_flatMap c text, rfl⟩

/-- **C5**: decode fails exactly when the base64-intermediate flag is set
and the reconstructed intermediate text is not valid standard base64 (the
modelled `base64.StdEncoding.DecodeString` rejects it); with the flag unset
decode never fails and returns the reconstructed text directly. -/
theorem C5_decodeError (c : Codec) (text : List Nat) (f : Bool) :
    (decodeData c text f = none ↔ f = true ∧ base64Decode (reconstruct c text) = none) ∧
    decodeData c text false = some (reconstruct c text) := by
  refine ⟨?_, rfl⟩
  cases f with
  | false =>
    rw [decodeData_false]
    simp
  | true =>
    rw [decodeData_true]
    exact ⟨fun h => ⟨rfl, h⟩, fun h => h.2⟩

theorem loadDictionary_eq (content : List Nat) :
    loadDictionary content =
      if (extractChineseCharacters content).length < minDictChars then
        .error (.insufficient (extractChineseCharacters content).length minDictChars)
      else .ok (buildMapping (extractChineseCharacters content)) := rfl

/-- **C6**: dictionary loading fails with `InsufficientDictionary` carrying
the found and required counts exactly when the number of distinct qualifying
characters is below 256; at the boundary, a dictionary of exactly 255
qualifying characters fails and one of exactly 256 succeeds and builds the
mapping. -/
theorem C6_dictionaryThreshold (content : List Nat) :
    ((loadDictionary content =
        .error (.insufficient (extractChineseCharacters content).length minDictChars)) ↔
      (extractChineseCharacters content).length < 256) ∧
    ((∃ cd, loadDictionary content = .ok cd) ↔
      256 ≤ (extractChineseCharacters content).length) ∧
    loadDictionary (List.range' 0x4E00 255) = .error (.insufficient 255 256) ∧
    (extractChineseCharacters (List.range' 0x4E00 255)).length = 255 ∧
    loadDictionary (List.range' 0x4E00 256) = .ok (buildMapping (List.range' 0x4E00 256)) ∧
    (extractChineseCharacters (List.range' 0x4E00 256)).length = 256 := by
  have h255 : extractChineseCharacters (List.range' 0x4E00 255) = List.range' 0x4E00 255 :=
    extract_range' le_rfl (by norm_num)
  have h256 : extractChineseCharacters (List.range' 0x4E00 256) = List.range' 0x4E00 256 :=
    extract_range' le_rfl (by norm_num)
  simp only [loadDictionary_eq, minDictChars, h255, h256, List.length_range']
  refine ⟨?_, ?_, ?_, trivial, ?_, trivial⟩
  · by_cases h : (extractChineseCharacters content).length < 256
    · simp [h]
    · simp [h]
  · by_cases h : (extractChineseCharacters content).length < 256
    · rw [if_pos h]
      simp only [iff_iff_implies_and_implies]
      exact ⟨fun hcd => absurd hcd.choose_spec (by simp), fun hle => by omega⟩
    · rw [if_neg h]
      exact ⟨fun _ => by omega, fun _ => ⟨_, rfl⟩⟩
  · rw [if_pos (by norm_num)]
  · rw [if_neg (by norm_num)]

/-- **C7**: extraction scans the text once in code-point order, collecting
each qualifying character exactly once at its first occurrence (keep-first
deduplication of the qualifying-character subsequence, hence duplicate-free,
and containing exactly the qualifying characters of the text); a character
qualifies exactly when its code point lies in one of the three CJK ranges
U+4E00–U+9FFF, U+3400–U+4DBF, U+20000–U+2A6DF. -/
theorem C7_extraction (text : List Nat) :
    extractChineseCharacters text = dedupFirst (text.filter (fun r => isChineseChar r)) ∧
    (∀ r, r ∈ extractChineseCharacters text ↔ r ∈ text ∧ isChineseChar r = true) ∧
    (extractChineseCharacters text).Nodup ∧
    (∀ r, isChineseChar r = true ↔
      ((0x4E00 ≤ r ∧ r ≤ 0x9FFF) ∨ (0x3400 ≤ r ∧ r ≤ 0x4DBF) ∨
        (0x20000 ≤ r ∧ r ≤ 0x2A6DF))) := by
  refine ⟨extract_eq_dedupFirst text, ?_, extract_nodup text, ?_⟩
  · intro r
    rw [extract_eq_dedupFirst, mem_dedupFirst, List.mem_filter]
  · intro r
    simp only [isChineseChar, Bool.or_eq_true, Bool.and_eq_true, decide_eq_true_eq]
    omega

/-- **C8**: an odd-length intermediate text gets exactly one `=` appended,
reaching even length; an even-length one is unchanged; and in base64 mode
decoding discards the `=` padding as part of standard base64 decoding, so a
one-byte input (whose base64 form `AA==`-style ends in padding) round-trips
exactly. -/
theorem C8_padding (text dictText : List Nat) (b : Nat) :
    (text.length % 2 = 1 → padEven text = text ++ [61] ∧ (padEven text).length % 2 = 0) ∧
    (text.length % 2 = 0 → padEven text = text) ∧
    (b < 256 → decodeData (buildMapping (extractChineseCharacters dictText))
        (encodeData (buildMapping (extractChineseCharacters dictText)) [b] true) true =
        some [b]) := by
  refine ⟨?_, ?_, ?_⟩
  · intro h
    constructor
    · rw [padEven, if_pos (by omega)]
    · rw [padEven, if_pos (by omega), List.length_append]
      simp only [List.length_cons, List.length_nil]
      omega
  · intro h
    rw [padEven, if_neg (by omega)]
  · intro hb
    exact roundTrip_b64 dictText [b] (fun x hx => by rw [List.mem_singleton] at hx; omega)

theorem C8_padding_witness :
    (padEven [65] = [65] ++ [61] ∧ (padEven [65]).length % 2 = 0) ∧
    padEven [65, 66] = [65, 66] ∧
    decodeData (buildMapping (extractChineseCharacters [0x4E00]))
      (encodeData (buildMapping (extractChineseCharacters [0x4E00])) [0] true) true =
      some [0] :=
  ⟨(C8_padding [65] [] 0).1 (by decide),
   (C8_padding [65, 66] [] 0).2.1 (by decide),
   (C8_padding [] [0x4E00] 0).2.2 (by decide)⟩

/-- **C9**: the concrete scenario: with a dictionary of exactly the 4096
distinct qualifying characters U+4E00, U+4E01, … in order, encoding the
byte `0x00` in base64 mode gives the intermediate `AA==` (even length, no
pad appended), whose segment `AA` maps to the first assigned character
U+4E00 (row 0, column 0) and whose segment `==` passes through literally;
decoding reconstructs exactly `AA==` and base64-decodes it to `[0x00]`. -/
theorem C9_scenario :
    base64Encode [0] = [65, 65, 61, 61] ∧
    (base64Encode [0]).length % 2 = 0 ∧
    padEven (base64Encode [0]) = [65, 65, 61, 61] ∧
    List.lookup (65, 65)
      (buildMapping (extractChineseCharacters (List.range' 0x4E00 4096))).pairToRune =
      some 0x4E00 ∧
    isValidBase64Pair 61 61 = false ∧
    encodeData (buildMapping (extractChineseCharacters (List.range' 0x4E00 4096))) [0] true =
      [0x4E00, 61, 61] ∧
    reconstruct (buildMapping (extractChineseCharacters (List.range' 0x4E00 4096)))
      [0x4E00, 61, 61] = [65, 65, 61, 61] ∧
    decodeData (buildMapping (extractChineseCharacters (List.range' 0x4E00 4096)))
      [0x4E00, 61, 61] true = some [0] := by
  have hex : extractChineseCharacters (List.range' 0x4E00 4096) = List.range' 0x4E00 4096 :=
    extract_range' le_rfl (by norm_num)
  have hk : (0 : Nat) < min 4096 (List.range' 0x4E00 4096).length := by
    rw [List.length_range']
    norm_num
  have hgd : (List.range' 0x4E00 4096).getD 0 0 = 0x4E00 := rfl
  have hlp : List.lookup (65, 65) (buildMapping (List.range' 0x4E00 4096)).pairToRune =
      some 0x4E00 := by
    have h := bm_lookup_pair hk
    rwa [hgd] at h
  have hlr : List.lookup 0x4E00 (buildMapping (List.range' 0x4E00 4096)).runeToPair =
      some (65, 65) := by
    have h := bm_lookup_rune (List.nodup_range' _ _) hk
    rwa [hgd] at h
  have hcjk : ∀ x ∈ List.range' 0x4E00 4096, isChineseChar x = true :=
    range'_cjk le_rfl (by norm_num)
  have henc64 : base64Encode [0] = [65, 65, 61, 61] := by decide
  have hrec : reconstruct (buildMapping (List.range' 0x4E00 4096)) [0x4E00, 61, 61] =
      [65, 65, 61, 61] := by
    rw [reconstruct_cons, hlr, reconstruct_cons, bm_rtp_lookup_none hcjk (by decide),
      reconstruct_cons, bm_rtp_lookup_none hcjk (by decide)]
    rfl
  rw [hex]
  refine ⟨henc64, by rw [henc64]; decide, by rw [henc64]; decide, hlp, by decide, ?_, hrec, ?_⟩
  · rw [encodeData_true, henc64, show padEven [65, 65, 61, 61] = [65, 65, 61, 61] from by decide,
      encodePairs_cons, if_pos (by decide), hlp, encodePairs_cons, if_neg (by decide)]
    rfl
  · rw [decodeData_true, hrec]
    decide

/-- **C10** (implicit): standard base64 output always has length a multiple
of 4, hence even, so the odd-length padding branch of `encodeData` never
fires in base64 mode (the codec appends no extra `=` of its own there); the
padding step can only fire in raw mode, on odd-length inputs. -/
theorem C10_base64NoPad (c : Codec) (data : List Nat) :
    (base64Encode data).length % 4 = 0 ∧
    (base64Encode data).length % 2 = 0 ∧
    padEven (base64Encode data) = base64Encode data ∧
    encodeData c data true = (encodePairs c (base64Encode data)).1 ∧
    (data.length % 2 = 1 → encodeData c data false = (encodePairs c (data ++ [61])).1) := by
  have h4 := base64Encode_length data
  have hpad : padEven (base64Encode data) = base64Encode data := by
    rw [padEven, if_neg]
    omega
  refine ⟨h4, by omega, hpad, ?_, ?_⟩
  · rw [encodeData_true, hpad]
  · intro hodd
    rw [encodeData_false, padEven, if_pos (by omega)]

theorem C10_base64NoPad_witness :
    encodeData (buildMapping (extractChineseCharacters [])) [65] false =
      (encodePairs (buildMapping (extractChineseCharacters [])) ([65] ++ [61])).1 :=
  (C10_base64NoPad (buildMapping (extractChineseCharacters [])) [65]).2.2.2.2 (by decide)

end Sinogram
